import Mathlib

/-!
Verification development for the TOC (table of contents) extractor `app.py`.

Python strings are embedded as `List Char`.  The regular expressions of
`parse_toc` are embedded as an explicit AST (`RE`) together with a fuelled
backtracking matcher (`reMs`) that enumerates candidate matches in exactly
the preference order of Python's `re` engine: ordered alternation, greedy
quantifiers try longer matches first, lazy quantifiers shorter first, and
concatenation backtracks its right part first.  `re.match` is the head of
that enumeration.

Character classes are embedded by their code points.  Python's `\s` (and
`str.strip`'s whitespace set, for the ASCII range relevant here) is the set
{space, \t, \n, \r, \x0b, \x0c}; `\d` under `re.UNICODE` is restricted to
the two decimal-digit alphabets this program processes (Arabic 0-9,
U+0030..U+0039, and Devanagari ०-९, U+0966..U+096F).  `re.IGNORECASE` is a
no-op for these patterns: they contain no cased literal characters.
-/

/-- Python's whitespace set (ASCII range): the class `\s` and the set
stripped by `str.strip`. -/
def wsCls (c : Char) : Bool :=
  decide (c.toNat = 32 ∨ c.toNat = 9 ∨ c.toNat = 10 ∨ c.toNat = 13 ∨
    c.toNat = 11 ∨ c.toNat = 12)

/-- `.` in a Python regex (no DOTALL): any character except a newline. -/
def anyCls (c : Char) : Bool := decide (¬ c = '\n')

/-- An Arabic digit `0`-`9`. -/
def isArabicDigitChar (c : Char) : Bool := decide (48 ≤ c.toNat ∧ c.toNat ≤ 57)

/-- A Devanagari digit `०`-`९` (U+0966..U+096F, a contiguous block). -/
def isDevDigitChar (c : Char) : Bool :=
  decide (2406 ≤ c.toNat ∧ c.toNat ≤ 2415)

/-- The class `\d`, restricted to the two digit alphabets of this program. -/
def isDigitRe (c : Char) : Bool := isArabicDigitChar c || isDevDigitChar c

/-- The class `[०१२३४५६७८९\d]` of the Hindi patterns. -/
def uniDigitCls (c : Char) : Bool := isDevDigitChar c || isDigitRe c

/-- The class `[\s\.\-]`. -/
def sepDotCls (c : Char) : Bool := wsCls c || c == '.' || c == '-'

/-- The class `[\s\-\_]`. -/
def sepUndCls (c : Char) : Bool := wsCls c || c == '-' || c == '_'

/-- The class `[\s\-\—]` (whitespace, hyphen, em dash). -/
def sepEmCls (c : Char) : Bool := wsCls c || c == '-' || c == '—'

/-- The class `[\s\.]`. -/
def sepWsDotCls (c : Char) : Bool := wsCls c || c == '.'

/-- The class `[\.\:\-]`. -/
def punctCls (c : Char) : Bool := c == '.' || c == ':' || c == '-'

/-- Python `str.strip()`: drop whitespace from both ends. -/
def pyStrip (l : List Char) : List Char :=
  ((l.dropWhile wsCls).reverse.dropWhile wsCls).reverse

/-- Python `str.lower()` restricted to the ASCII letters; every character of
the skip-term comparison that lowering can affect is ASCII. -/
def pyLowerChar (c : Char) : Char :=
  if 65 ≤ c.toNat ∧ c.toNat ≤ 90 then Char.ofNat (c.toNat + 32) else c

/-- Python `str.lower()` on a whole string. -/
def pyLower (l : List Char) : List Char := l.map pyLowerChar

/-- Python's `in` on strings: `t` occurs as a contiguous substring of `l`. -/
def containsSub (t : List Char) : List Char → Bool
  | [] => t.isEmpty
  | c :: rest => t.isPrefixOf (c :: rest) || containsSub t rest

/-- Python `text.split('\n')`: split at every newline, keeping empty pieces. -/
def pySplit (l : List Char) : List (List Char) :=
  match l with
  | [] => [[]]
  | c :: rest =>
    match pySplit rest with
    | [] => [[]]
    | g :: gs => if c == '\n' then [] :: g :: gs else (c :: g) :: gs

/-- Regular-expression AST covering the constructs used by `parse_toc`'s
patterns: character classes, literal runs (the Devanagari keyword
alternation), concatenation, alternation, greedy and lazy star, greedy plus,
greedy option, numbered capture groups, and the end-of-input anchor `$`. -/
inductive RE : Type where
  | eps : RE
  | cls (p : Char → Bool) : RE
  | lit (l : List Char) : RE
  | cat (a b : RE) : RE
  | alt (a b : RE) : RE
  | starG (r : RE) : RE
  | starL (r : RE) : RE
  | plusG (r : RE) : RE
  | optG (r : RE) : RE
  | group (n : Nat) (r : RE) : RE
  | eos : RE

/-- Node count of a regex, used to size the matcher's fuel. -/
def RE.size : RE → Nat
  | .eps => 1
  | .cls _ => 1
  | .lit _ => 1
  | .cat a b => a.size + b.size + 1
  | .alt a b => a.size + b.size + 1
  | .starG r => r.size + 1
  | .starL r => r.size + 1
  | .plusG r => r.size + 1
  | .optG r => r.size + 1
  | .group _ r => r.size + 1
  | .eos => 1

/-- Number of capture groups of a pattern (`len(match.groups())`). -/
def RE.numGroups : RE → Nat
  | .eps => 0
  | .cls _ => 0
  | .lit _ => 0
  | .cat a b => a.numGroups + b.numGroups
  | .alt a b => a.numGroups + b.numGroups
  | .starG r => r.numGroups
  | .starL r => r.numGroups
  | .plusG r => r.numGroups
  | .optG r => r.numGroups
  | .group _ r => r.numGroups + 1
  | .eos => 0

/-- Capture environment: group number paired with the captured substring,
most recent assignment first. -/
abbrev Caps : Type := List (Nat × List Char)

/-- `capLookup n caps` is `match.group(n)`. -/
def capLookup (n : Nat) : Caps → Option (List Char)
  | [] => none
  | (m, v) :: rest => if m = n then some v else capLookup n rest

/-- The backtracking matcher.  `reMs f r s caps` enumerates, in Python's
backtracking preference order, triples `(caps', consumed, rest)` such that
`r` can match the prefix `consumed` of `s` (so `s = consumed ++ rest`),
extending the capture environment `caps` to `caps'`.  One unit of fuel is
spent on every recursive call; with the generous fuel of `matchFuel` the
enumeration is exactly the Python engine's.  Iterating a star on an empty
body match is cut off, as in Python's engine. -/
def reMs : Nat → RE → List Char → Caps → List (Caps × List Char × List Char)
  | 0, _, _, _ => []
  | _ + 1, .eps, s, caps => [(caps, [], s)]
  | _ + 1, .cls p, s, caps =>
    match s with
    | [] => []
    | c :: s' => if p c then [(caps, [c], s')] else []
  | _ + 1, .lit l, s, caps =>
    if l.isPrefixOf s then [(caps, l, s.drop l.length)] else []
  | f + 1, .cat a b, s, caps =>
    (reMs f a s caps).flatMap (fun q =>
      (reMs f b q.2.2 q.1).map (fun w => (w.1, q.2.1 ++ w.2.1, w.2.2)))
  | f + 1, .alt a b, s, caps => reMs f a s caps ++ reMs f b s caps
  | f + 1, .starG r, s, caps =>
    ((reMs f r s caps).flatMap (fun q =>
      if q.2.1.isEmpty then []
      else (reMs f (.starG r) q.2.2 q.1).map
        (fun w => (w.1, q.2.1 ++ w.2.1, w.2.2))))
    ++ [(caps, [], s)]
  | f + 1, .starL r, s, caps =>
    (caps, ([] : List Char), s) ::
    (reMs f r s caps).flatMap (fun q =>
      if q.2.1.isEmpty then []
      else (reMs f (.starL r) q.2.2 q.1).map
        (fun w => (w.1, q.2.1 ++ w.2.1, w.2.2)))
  | f + 1, .plusG r, s, caps =>
    (reMs f r s caps).flatMap (fun q =>
      (reMs f (.starG r) q.2.2 q.1).map (fun w => (w.1, q.2.1 ++ w.2.1, w.2.2)))
  | f + 1, .optG r, s, caps => reMs f r s caps ++ [(caps, [], s)]
  | f + 1, .group n r, s, caps =>
    (reMs f r s caps).map (fun q => ((n, q.2.1) :: q.1, q.2.1, q.2.2))
  | _ + 1, .eos, s, caps => if s.isEmpty then [(caps, [], s)] else []

/-- Fuel that is always sufficient for `reMs` to enumerate every match of
`r` against `s`. -/
def matchFuel (r : RE) (s : List Char) : Nat := (r.size + 2) * (s.length + 2)

/-- Python `re.match(r, s)`: the backtracking engine's first match anchored
at the start of `s` (all patterns used here end in `$`, so a match always
extends to the end), returning its capture environment. -/
def pyMatch (r : RE) (s : List Char) : Option Caps :=
  ((reMs (matchFuel r s) r s []).head?).map (fun q => q.1)

/-- Python `re.search(r, s)` for the anchored fallback pattern: try each
start position from the left, returning the start index of the leftmost
match together with its captures. -/
def searchFrom (r : RE) (i : Nat) : List Char → Option (Nat × Caps)
  | [] =>
    match pyMatch r [] with
    | some caps => some (i, caps)
    | none => none
  | c :: s' =>
    match pyMatch r (c :: s') with
    | some caps => some (i, caps)
    | none => searchFrom r (i + 1) s'

/-- `re.search` from position 0. -/
def reSearch (r : RE) (s : List Char) : Option (Nat × Caps) := searchFrom r 0 s

/-- Latin pattern 1, `r'^(.*?)[\s\.\-]+(\d+)\s*$'` (`Title........123`). -/
def commonPat1 : RE :=
  RE.cat (RE.group 1 (RE.starL (RE.cls anyCls)))
    (RE.cat (RE.plusG (RE.cls sepDotCls))
      (RE.cat (RE.group 2 (RE.plusG (RE.cls isDigitRe)))
        (RE.cat (RE.starG (RE.cls wsCls)) RE.eos)))

/-- Latin pattern 2, `r'^(.*?)[\s\-\_]+(\d+)\s*$'` (`Title - 123`). -/
def commonPat2 : RE :=
  RE.cat (RE.group 1 (RE.starL (RE.cls anyCls)))
    (RE.cat (RE.plusG (RE.cls sepUndCls))
      (RE.cat (RE.group 2 (RE.plusG (RE.cls isDigitRe)))
        (RE.cat (RE.starG (RE.cls wsCls)) RE.eos)))

/-- Latin pattern 3, `r'^\s*(\d+\..*?)[\s\.\-]+(\d+)\s*$'` (`1. Title...123`). -/
def commonPat3 : RE :=
  RE.cat (RE.starG (RE.cls wsCls))
    (RE.cat (RE.group 1 (RE.cat (RE.plusG (RE.cls isDigitRe))
        (RE.cat (RE.cls (fun c => c == '.')) (RE.starL (RE.cls anyCls)))))
      (RE.cat (RE.plusG (RE.cls sepDotCls))
        (RE.cat (RE.group 2 (RE.plusG (RE.cls isDigitRe)))
          (RE.cat (RE.starG (RE.cls wsCls)) RE.eos))))

/-- The ordered Latin-mode rule list `common_patterns`. -/
def common_patterns : List RE := [commonPat1, commonPat2, commonPat3]

/-- Hindi pattern 1,
`r'^\s*([०१२३४५६७८९]+\.\s+.*?)[\s\.\-]*([०१२३४५६७८९\d]+)\s*$'`. -/
def hindiPat1 : RE :=
  RE.cat (RE.starG (RE.cls wsCls))
    (RE.cat (RE.group 1 (RE.cat (RE.plusG (RE.cls isDevDigitChar))
        (RE.cat (RE.cls (fun c => c == '.'))
          (RE.cat (RE.plusG (RE.cls wsCls)) (RE.starL (RE.cls anyCls))))))
      (RE.cat (RE.starG (RE.cls sepDotCls))
        (RE.cat (RE.group 2 (RE.plusG (RE.cls uniDigitCls)))
          (RE.cat (RE.starG (RE.cls wsCls)) RE.eos))))

/-- Hindi pattern 2, `r'^(.*?)[\s\-\—]+([०१२३४५६७८९\d]+)\s*$'`. -/
def hindiPat2 : RE :=
  RE.cat (RE.group 1 (RE.starL (RE.cls anyCls)))
    (RE.cat (RE.plusG (RE.cls sepEmCls))
      (RE.cat (RE.group 2 (RE.plusG (RE.cls uniDigitCls)))
        (RE.cat (RE.starG (RE.cls wsCls)) RE.eos)))

/-- Hindi pattern 3, `r'^(.*?)[\s\.]+([०१२३४५६७८९\d]+)\s*$'`. -/
def hindiPat3 : RE :=
  RE.cat (RE.group 1 (RE.starL (RE.cls anyCls)))
    (RE.cat (RE.plusG (RE.cls sepWsDotCls))
      (RE.cat (RE.group 2 (RE.plusG (RE.cls uniDigitCls)))
        (RE.cat (RE.starG (RE.cls wsCls)) RE.eos)))

/-- The keyword alternation `(?:अध्याय|खंड|परिशिष्ट|प्रस्तावना|भाग|अनुभाग|प्रकरण)`
(non-capturing). -/
def hindiKeywordAlt : RE :=
  RE.alt (RE.lit "अध्याय".data)
    (RE.alt (RE.lit "खंड".data)
      (RE.alt (RE.lit "परिशिष्ट".data)
        (RE.alt (RE.lit "प्रस्तावना".data)
          (RE.alt (RE.lit "भाग".data)
            (RE.alt (RE.lit "अनुभाग".data) (RE.lit "प्रकरण".data))))))

/-- Hindi pattern 4, the chapter-heading rule
`r'^(.*?(?:अध्याय|खंड|परिशिष्ट|प्रस्तावना|भाग|अनुभाग|प्रकरण)\s*[०१२३४५६७८९]*[\.\:\-]?\s*.*?)[\s\.\-]*([०१२३४५६७८९\d]+)\s*$'`. -/
def hindiPat4 : RE :=
  RE.cat (RE.group 1 (RE.cat (RE.starL (RE.cls anyCls))
      (RE.cat hindiKeywordAlt
        (RE.cat (RE.starG (RE.cls wsCls))
          (RE.cat (RE.starG (RE.cls isDevDigitChar))
            (RE.cat (RE.optG (RE.cls punctCls))
              (RE.cat (RE.starG (RE.cls wsCls)) (RE.starL (RE.cls anyCls)))))))))
    (RE.cat (RE.starG (RE.cls sepDotCls))
      (RE.cat (RE.group 2 (RE.plusG (RE.cls uniDigitCls)))
        (RE.cat (RE.starG (RE.cls wsCls)) RE.eos)))

/-- Hindi pattern 5, the generic catch-all `r'^(.*?)\s+([०१२३४५६७८९\d]+)$'`
(any text followed by a trailing Hindi/Arabic digit run). -/
def hindiPat5 : RE :=
  RE.cat (RE.group 1 (RE.starL (RE.cls anyCls)))
    (RE.cat (RE.plusG (RE.cls wsCls))
      (RE.cat (RE.group 2 (RE.plusG (RE.cls uniDigitCls))) RE.eos))

/-- The ordered Hindi-mode rule list `hindi_patterns`. -/
def hindi_patterns : List RE :=
  [hindiPat1, hindiPat2, hindiPat3, hindiPat4, hindiPat5]

/-- The fallback pattern `r'(\d+|[०१२३४५६७८९]+)$'` used with `re.search`. -/
def fallbackPat : RE :=
  RE.cat (RE.group 1 (RE.alt (RE.plusG (RE.cls isDigitRe))
    (RE.plusG (RE.cls isDevDigitChar)))) RE.eos

/-- `skip_terms_eng` from `parse_toc`. -/
def skip_terms_eng : List (List Char) :=
  ["table of contents".data, "contents".data, "page".data, "chap".data]

/-- `skip_terms_hindi` from `parse_toc`. -/
def skip_terms_hindi : List (List Char) :=
  ["विषय सूची".data, "अनुक्रमणिका".data, "सामग्री".data, "पृष्ठ".data, "अध्याय".data]

/-- `is_valid_page_number`: the string is non-empty and every character is
in the literal `'0123456789०१२३४५६७८९'` — i.e. an Arabic digit (U+0030..U+0039)
or a Devanagari digit (U+0966..U+096F), both contiguous blocks. -/
def is_valid_page_number (page_str : List Char) : Bool :=
  !page_str.isEmpty &&
    page_str.all (fun c => isArabicDigitChar c || isDevDigitChar c)

/-- `convert_hindi_digits` on one character: the dictionary
`hindi_digits = {'०':'0', …, '९':'9'}` consulted with `.get(char, char)`,
i.e. identity outside the ten Devanagari digits. -/
def convertHindiDigitChar (c : Char) : Char :=
  if c = '०' then '0' else if c = '१' then '1' else if c = '२' then '2'
  else if c = '३' then '3' else if c = '४' then '4' else if c = '५' then '5'
  else if c = '६' then '6' else if c = '७' then '7' else if c = '८' then '8'
  else if c = '९' then '9' else c

/-- `convert_hindi_digits`: map Devanagari digits to Arabic ones. -/
def convert_hindi_digits (text : List Char) : List Char :=
  text.map convertHindiDigitChar

/-- A TOC entry `{"chapter": …, "page": …}`. -/
structure TocEntry where
  chapter : List Char
  page : List Char
deriving DecidableEq

/-- The body of `parse_toc`'s `for pattern in patterns` loop for one pattern
on one (already stripped) line, instrumented to also return the accepted
pre-normalization page token (after `.strip()`, before
`convert_hindi_digits`).  `none` means this pattern contributes nothing and
the loop continues with the next pattern. -/
def tryPatternT (line : List Char) (p : RE) : Option (TocEntry × List Char) :=
  match pyMatch p line with
  | none => none
  | some caps =>
    let chPg : Option (List Char × List Char) :=
      if p.numGroups = 2 then
        match capLookup 1 caps, capLookup 2 caps with
        | some g1, some g2 => some (pyStrip g1, pyStrip g2)
        | _, _ => none
      else if p.numGroups = 3 then
        match capLookup 1 caps, capLookup 2 caps, capLookup 3 caps with
        | some g1, some g2, some g3 =>
          some (pyStrip (g1 ++ ' ' :: g2), pyStrip g3)
        | _, _, _ => none
      else none
    match chPg with
    | none => none
    | some (chapter, page) =>
      if is_valid_page_number page then
        some (⟨chapter, convert_hindi_digits page⟩, page)
      else
        match reSearch fallbackPat line with
        | some (start, fcaps) =>
          match capLookup 1 fcaps with
          | some pg =>
            if is_valid_page_number pg then
              some (⟨pyStrip (line.take start), convert_hindi_digits pg⟩, pg)
            else none
          | none => none
        | none => none

/-- First `some` produced by `f` along a list, in order. -/
def firstSome (f : α → Option β) : List α → Option β
  | [] => none
  | a :: l =>
    match f a with
    | some b => some b
    | none => firstSome f l

/-- One iteration of `parse_toc`'s line loop (instrumented with the raw
page token): strip the line, skip short lines, skip lines containing a
skip term, then try the mode's patterns in order; at most one entry is
appended per line. -/
def processLineT (is_hindi : Bool) (rawLine : List Char) :
    Option (TocEntry × List Char) :=
  let line := pyStrip rawLine
  if line.isEmpty || line.length < 5 then none
  else if (if is_hindi then skip_terms_hindi else skip_terms_eng).any
      (fun term => containsSub term (pyLower line)) then none
  else firstSome (tryPatternT line) (if is_hindi then hindi_patterns else common_patterns)

/-- One iteration of `parse_toc`'s line loop: the entry it appends, if any. -/
def processLine (is_hindi : Bool) (rawLine : List Char) : Option TocEntry :=
  (processLineT is_hindi rawLine).map Prod.fst

/-- `parse_toc(text, is_hindi)`: split on newlines and process each line in
order; the entry list is the concatenation of the per-line results. -/
def parse_toc (text : List Char) (is_hindi : Bool := false) : List TocEntry :=
  (pySplit text).filterMap (processLine is_hindi)

/-- One page of a PDF document, seen through the external collaborators of
`extract_text_from_pdf`: `embedded` is what `page.extract_text()` returns
(never raises), and `ocr` is the outcome of the rasterize+OCR attempt —
`Except.error ()` when `convert_from_path` or `image_to_string` raises,
`Except.ok none` when `convert_from_path` returns no images, and
`Except.ok (some t)` when OCR recognizes the text `t`. -/
structure PdfPage where
  embedded : List Char
  ocr : Except Unit (Option (List Char))

/-- The text `extract_text_from_pdf` ends up with for one page: the embedded
text when it is not whitespace-only; otherwise the OCR result, which is the
empty string when the OCR machinery raises, and the (whitespace-only)
embedded text when no images come back. -/
def pageText (p : PdfPage) : List Char :=
  if (pyStrip p.embedded).isEmpty then
    match p.ocr with
    | Except.error _ => []
    | Except.ok none => p.embedded
    | Except.ok (some t) => t
  else p.embedded

/-- `extract_text_from_pdf`: concatenate every page's text, each followed by
a newline. -/
def extract_text_from_pdf (pages : List PdfPage) : List Char :=
  pages.foldl (fun text p => text ++ pageText p ++ ['\n']) []

/-! ### Basic facts about the string operations -/

theorem dropWhile_dropWhile (p : α → Bool) (l : List α) :
    List.dropWhile p (List.dropWhile p l) = List.dropWhile p l := by
  induction l with
  | nil => rfl
  | cons c t ih =>
    by_cases h : p c = true
    · simp [List.dropWhile_cons, h, ih]
    · simp [List.dropWhile_cons, h]

theorem dropWhile_head?_false {p : α → Bool} {l : List α} {c : α}
    (h : (List.dropWhile p l).head? = some c) : p c = false := by
  induction l with
  | nil => simp [List.dropWhile] at h
  | cons a t ih =>
    rw [List.dropWhile_cons] at h
    split at h
    · exact ih h
    · next hp =>
      have : a = c := by simpa using h
      subst this
      simpa using hp

theorem getLast?_dropWhile {p : α → Bool} {l : List α}
    (h : List.dropWhile p l ≠ []) :
    (List.dropWhile p l).getLast? = l.getLast? := by
  induction l with
  | nil => simp [List.dropWhile] at h
  | cons a t ih =>
    rw [List.dropWhile_cons] at h ⊢
    by_cases hp : p a = true
    · rw [if_pos hp] at h ⊢
      cases t with
      | nil => simp [List.dropWhile] at h
      | cons b t' => rw [List.getLast?_cons_cons]; exact ih h
    · rw [if_neg hp]

theorem head?_mem {l : List α} {c : α} (h : l.head? = some c) : c ∈ l := by
  cases l with
  | nil => simp at h
  | cons a t =>
    have : a = c := by simpa using h
    subst this
    exact List.mem_cons_self a t

theorem getLast?_mem {l : List α} {c : α} (h : l.getLast? = some c) : c ∈ l := by
  rw [← List.head?_reverse] at h
  exact List.mem_reverse.mp (head?_mem h)

theorem pyStrip_head?_false {l : List Char} {c : Char}
    (h : (pyStrip l).head? = some c) : wsCls c = false := by
  unfold pyStrip at h
  rw [List.head?_reverse] at h
  have hne : List.dropWhile wsCls (List.dropWhile wsCls l).reverse ≠ [] := by
    intro h0
    rw [h0] at h
    simp at h
  rw [getLast?_dropWhile hne, List.getLast?_reverse] at h
  exact dropWhile_head?_false h

theorem pyStrip_getLast?_false {l : List Char} {c : Char}
    (h : (pyStrip l).getLast? = some c) : wsCls c = false := by
  unfold pyStrip at h
  rw [List.getLast?_reverse] at h
  exact dropWhile_head?_false h

theorem pyStrip_eq_self {x : List Char}
    (hh : ∀ c, x.head? = some c → wsCls c = false)
    (hl : ∀ c, x.getLast? = some c → wsCls c = false) : pyStrip x = x := by
  have h1 : List.dropWhile wsCls x = x := by
    cases x with
    | nil => rfl
    | cons a t => rw [List.dropWhile_cons, hh a rfl]; simp
  have h2 : List.dropWhile wsCls x.reverse = x.reverse := by
    cases hx : x.reverse with
    | nil => rfl
    | cons a t =>
      have ha : x.getLast? = some a := by rw [← List.head?_reverse, hx]; rfl
      rw [List.dropWhile_cons, hl a ha]
      simp
  unfold pyStrip
  rw [h1, h2, List.reverse_reverse]

/-- `str.strip()` is idempotent. -/
theorem pyStrip_idem (l : List Char) : pyStrip (pyStrip l) = pyStrip l :=
  pyStrip_eq_self (fun _ h => pyStrip_head?_false h)
    (fun _ h => pyStrip_getLast?_false h)

/-- Stripping a string with no whitespace at all leaves it unchanged. -/
theorem pyStrip_of_forall_not_ws {x : List Char}
    (h : ∀ c ∈ x, wsCls c = false) : pyStrip x = x :=
  pyStrip_eq_self (fun c hc => h c (head?_mem hc))
    (fun c hc => h c (getLast?_mem hc))

theorem mem_pyStrip {c : Char} {l : List Char} (h : c ∈ pyStrip l) : c ∈ l := by
  unfold pyStrip at h
  rw [List.mem_reverse] at h
  have h2 := (List.dropWhile_sublist wsCls).subset h
  rw [List.mem_reverse] at h2
  exact (List.dropWhile_sublist wsCls).subset h2

theorem pySplit_cons {c : Char} {rest g : List Char} {gs : List (List Char)}
    (h : pySplit rest = g :: gs) :
    pySplit (c :: rest) = if c == '\n' then [] :: g :: gs else (c :: g) :: gs := by
  unfold pySplit
  rw [h]

theorem pySplit_ne_nil (l : List Char) : pySplit l ≠ [] := by
  induction l with
  | nil => simp [pySplit]
  | cons c rest ih =>
    cases hr : pySplit rest with
    | nil => exact absurd hr ih
    | cons g gs => rw [pySplit_cons hr]; split <;> simp

/-- Pieces produced by `split('\n')` contain no newline. -/
theorem newline_not_mem_pySplit {t l : List Char} (h : l ∈ pySplit t) :
    '\n' ∉ l := by
  induction t generalizing l with
  | nil =>
    simp [pySplit] at h
    subst h
    simp
  | cons c rest ih =>
    cases hr : pySplit rest with
    | nil => exact absurd hr (pySplit_ne_nil rest)
    | cons g gs =>
      rw [pySplit_cons hr] at h
      by_cases hc : (c == '\n') = true
      · rw [if_pos hc] at h
        rcases List.mem_cons.mp h with h | h
        · subst h; simp
        · exact ih (by rw [hr]; exact h)
      · rw [if_neg hc] at h
        rcases List.mem_cons.mp h with h | h
        · subst h
          intro hmem
          rcases List.mem_cons.mp hmem with h1 | h1
          · exact hc (by rw [← h1]; simp)
          · exact ih (by rw [hr]; exact List.mem_cons_self g gs) h1
        · exact ih (by rw [hr]; exact List.mem_cons_of_mem g h)

/-- Unfolding `extract_text_from_pdf`'s accumulator. -/
theorem extract_foldl_acc (pages : List PdfPage) (acc : List Char) :
    pages.foldl (fun text p => text ++ pageText p ++ ['\n']) acc
      = acc ++ pages.foldl (fun text p => text ++ pageText p ++ ['\n']) [] := by
  induction pages generalizing acc with
  | nil => simp
  | cons p ps ih =>
    simp only [List.foldl_cons]
    rw [ih, ih ([] ++ pageText p ++ ['\n'])]
    simp

/-- `extract_text_from_pdf` distributes over splitting the page list. -/
theorem extract_text_append (l1 l2 : List PdfPage) :
    extract_text_from_pdf (l1 ++ l2)
      = extract_text_from_pdf l1 ++ extract_text_from_pdf l2 := by
  unfold extract_text_from_pdf
  rw [List.foldl_append, extract_foldl_acc]

/-! ### Soundness facts about the matcher -/

/-- Every result of `reMs` consumes a prefix: `s = consumed ++ rest`. -/
theorem reMs_consumed {f : Nat} {r : RE} {s : List Char} {caps : Caps}
    {q : Caps × List Char × List Char} (h : q ∈ reMs f r s caps) :
    s = q.2.1 ++ q.2.2 := by
  induction f generalizing r s caps q with
  | zero => simp [reMs] at h
  | succ f ih =>
    cases r with
    | eps =>
      simp [reMs] at h
      subst h
      rfl
    | cls p =>
      cases s with
      | nil => simp [reMs] at h
      | cons c s' =>
        by_cases hp : p c = true
        · simp [reMs, hp] at h
          subst h
          rfl
        · simp [reMs, hp] at h
    | lit l =>
      by_cases hp : l.isPrefixOf s = true
      · simp [reMs, hp] at h
        subst h
        obtain ⟨t, ht⟩ := List.isPrefixOf_iff_prefix.mp hp
        rw [← ht, List.drop_left]
      · simp [reMs, hp] at h
    | cat a b =>
      simp only [reMs, List.mem_flatMap, List.mem_map] at h
      obtain ⟨u, hu, w, hw, hq⟩ := h
      subst hq
      rw [ih hu, ih hw, List.append_assoc]
    | alt a b =>
      simp only [reMs, List.mem_append] at h
      rcases h with h | h
      · exact ih h
      · exact ih h
    | starG r =>
      simp only [reMs, List.mem_append, List.mem_flatMap, List.mem_singleton] at h
      rcases h with ⟨u, hu, hin⟩ | h
      · by_cases he : u.2.1.isEmpty = true
        · simp [he] at hin
        · simp only [he, Bool.false_eq_true, if_false, List.mem_map] at hin
          obtain ⟨w, hw, hq⟩ := hin
          subst hq
          rw [ih hu, ih hw, List.append_assoc]
      · subst h
        rfl
    | starL r =>
      simp only [reMs, List.mem_cons, List.mem_flatMap] at h
      rcases h with h | ⟨u, hu, hin⟩
      · subst h
        rfl
      · by_cases he : u.2.1.isEmpty = true
        · simp [he] at hin
        · simp only [he, Bool.false_eq_true, if_false, List.mem_map] at hin
          obtain ⟨w, hw, hq⟩ := hin
          subst hq
          rw [ih hu, ih hw, List.append_assoc]
    | plusG r =>
      simp only [reMs, List.mem_flatMap, List.mem_map] at h
      obtain ⟨u, hu, w, hw, hq⟩ := h
      subst hq
      rw [ih hu, ih hw, List.append_assoc]
    | optG r =>
      simp only [reMs, List.mem_append, List.mem_singleton] at h
      rcases h with h | h
      · exact ih h
      · subst h
        rfl
    | group n r =>
      simp only [reMs, List.mem_map] at h
      obtain ⟨u, hu, hq⟩ := h
      subst hq
      have hs := ih hu
      exact hs
    | eos =>
      by_cases hs : s.isEmpty = true
      · simp [reMs, hs] at h
        subst h
        rfl
      · simp [reMs, hs] at h

/-- A regex containing no capture group. -/
def RE.gfree : RE → Bool
  | .eps => true
  | .cls _ => true
  | .lit _ => true
  | .cat a b => a.gfree && b.gfree
  | .alt a b => a.gfree && b.gfree
  | .starG r => r.gfree
  | .starL r => r.gfree
  | .plusG r => r.gfree
  | .optG r => r.gfree
  | .group _ _ => false
  | .eos => true

/-- Matching a group-free regex leaves the capture environment unchanged. -/
theorem reMs_gfree {f : Nat} {r : RE} {s : List Char} {caps : Caps}
    {q : Caps × List Char × List Char} (hg : r.gfree = true)
    (h : q ∈ reMs f r s caps) : q.1 = caps := by
  induction f generalizing r s caps q with
  | zero => simp [reMs] at h
  | succ f ih =>
    cases r with
    | eps =>
      simp [reMs] at h
      subst h
      rfl
    | cls p =>
      cases s with
      | nil => simp [reMs] at h
      | cons c s' =>
        by_cases hp : p c = true
        · simp [reMs, hp] at h
          subst h
          rfl
        · simp [reMs, hp] at h
    | lit l =>
      by_cases hp : l.isPrefixOf s = true
      · simp [reMs, hp] at h
        subst h
        rfl
      · simp [reMs, hp] at h
    | cat a b =>
      rw [RE.gfree, Bool.and_eq_true] at hg
      simp only [reMs, List.mem_flatMap, List.mem_map] at h
      obtain ⟨u, hu, w, hw, hq⟩ := h
      subst hq
      rw [ih hg.2 hw, ih hg.1 hu]
    | alt a b =>
      rw [RE.gfree, Bool.and_eq_true] at hg
      simp only [reMs, List.mem_append] at h
      rcases h with h | h
      · exact ih hg.1 h
      · exact ih hg.2 h
    | starG r =>
      rw [RE.gfree] at hg
      simp only [reMs, List.mem_append, List.mem_flatMap, List.mem_singleton] at h
      rcases h with ⟨u, hu, hin⟩ | h
      · by_cases he : u.2.1.isEmpty = true
        · simp [he] at hin
        · simp only [he, Bool.false_eq_true, if_false, List.mem_map] at hin
          obtain ⟨w, hw, hq⟩ := hin
          subst hq
          rw [ih (by rw [RE.gfree]; exact hg) hw, ih hg hu]
      · subst h
        rfl
    | starL r =>
      rw [RE.gfree] at hg
      simp only [reMs, List.mem_cons, List.mem_flatMap] at h
      rcases h with h | ⟨u, hu, hin⟩
      · subst h
        rfl
      · by_cases he : u.2.1.isEmpty = true
        · simp [he] at hin
        · simp only [he, Bool.false_eq_true, if_false, List.mem_map] at hin
          obtain ⟨w, hw, hq⟩ := hin
          subst hq
          rw [ih (by rw [RE.gfree]; exact hg) hw, ih hg hu]
    | plusG r =>
      rw [RE.gfree] at hg
      simp only [reMs, List.mem_flatMap, List.mem_map] at h
      obtain ⟨u, hu, w, hw, hq⟩ := h
      subst hq
      rw [ih (by rw [RE.gfree]; exact hg) hw, ih hg hu]
    | optG r =>
      rw [RE.gfree] at hg
      simp only [reMs, List.mem_append, List.mem_singleton] at h
      rcases h with h | h
      · exact ih hg h
      · subst h
        rfl
    | group n r => simp [RE.gfree] at hg
    | eos =>
      by_cases hs : s.isEmpty = true
      · simp [reMs, hs] at h
        subst h
        rfl
      · simp [reMs, hs] at h

/-- Inverting a match of a single character class. -/
theorem cls_sound {f : Nat} {p : Char → Bool} {s : List Char} {caps : Caps}
    {q : Caps × List Char × List Char} (h : q ∈ reMs f (.cls p) s caps) :
    q.1 = caps ∧ ∃ c, q.2.1 = [c] ∧ p c = true ∧ s = c :: q.2.2 := by
  cases f with
  | zero => simp [reMs] at h
  | succ f =>
    cases s with
    | nil => simp [reMs] at h
    | cons c s' =>
      by_cases hp : p c = true
      · simp [reMs, hp] at h
        subst h
        exact ⟨rfl, c, rfl, hp, rfl⟩
      · simp [reMs, hp] at h

/-- Inverting a greedy star over a character class: the environment is
untouched and every consumed character satisfies the class. -/
theorem starG_cls_sound {f : Nat} {p : Char → Bool} {s : List Char}
    {caps : Caps} {q : Caps × List Char × List Char}
    (h : q ∈ reMs f (.starG (.cls p)) s caps) :
    q.1 = caps ∧ ∀ c ∈ q.2.1, p c = true := by
  induction f generalizing s caps q with
  | zero => simp [reMs] at h
  | succ f ih =>
    simp only [reMs, List.mem_append, List.mem_flatMap, List.mem_singleton] at h
    rcases h with ⟨u, hu, hin⟩ | h
    · by_cases he : u.2.1.isEmpty = true
      · simp [he] at hin
      · simp only [he, Bool.false_eq_true, if_false, List.mem_map] at hin
        obtain ⟨w, hw, hq⟩ := hin
        subst hq
        obtain ⟨hu1, c, hc1, hc2, _⟩ := cls_sound hu
        obtain ⟨hw1, hw2⟩ := ih hw
        refine ⟨by rw [hw1, hu1], ?_⟩
        intro d hd
        rcases List.mem_append.mp hd with hd | hd
        · rw [hc1] at hd
          rw [List.mem_singleton.mp hd]
          exact hc2
        · exact hw2 d hd
    · subst h
      exact ⟨rfl, by simp⟩

/-- Inverting a lazy star over a character class. -/
theorem starL_cls_sound {f : Nat} {p : Char → Bool} {s : List Char}
    {caps : Caps} {q : Caps × List Char × List Char}
    (h : q ∈ reMs f (.starL (.cls p)) s caps) :
    q.1 = caps ∧ ∀ c ∈ q.2.1, p c = true := by
  induction f generalizing s caps q with
  | zero => simp [reMs] at h
  | succ f ih =>
    simp only [reMs, List.mem_cons, List.mem_flatMap] at h
    rcases h with h | ⟨u, hu, hin⟩
    · subst h
      exact ⟨rfl, by simp⟩
    · by_cases he : u.2.1.isEmpty = true
      · simp [he] at hin
      · simp only [he, Bool.false_eq_true, if_false, List.mem_map] at hin
        obtain ⟨w, hw, hq⟩ := hin
        subst hq
        obtain ⟨hu1, c, hc1, hc2, _⟩ := cls_sound hu
        obtain ⟨hw1, hw2⟩ := ih hw
        refine ⟨by rw [hw1, hu1], ?_⟩
        intro d hd
        rcases List.mem_append.mp hd with hd | hd
        · rw [hc1] at hd
          rw [List.mem_singleton.mp hd]
          exact hc2
        · exact hw2 d hd

/-- Inverting a greedy plus over a character class: at least one character
is consumed and all of them satisfy the class. -/
theorem plusG_cls_sound {f : Nat} {p : Char → Bool} {s : List Char}
    {caps : Caps} {q : Caps × List Char × List Char}
    (h : q ∈ reMs f (.plusG (.cls p)) s caps) :
    q.1 = caps ∧ q.2.1 ≠ [] ∧ ∀ c ∈ q.2.1, p c = true := by
  cases f with
  | zero => simp [reMs] at h
  | succ f =>
    simp only [reMs, List.mem_flatMap, List.mem_map] at h
    obtain ⟨u, hu, w, hw, hq⟩ := h
    subst hq
    obtain ⟨hu1, c, hc1, hc2, _⟩ := cls_sound hu
    obtain ⟨hw1, hw2⟩ := starG_cls_sound hw
    refine ⟨by rw [hw1, hu1], by rw [hc1]; simp, ?_⟩
    intro d hd
    rcases List.mem_append.mp hd with hd | hd
    · rw [hc1] at hd
      rw [List.mem_singleton.mp hd]
      exact hc2
    · exact hw2 d hd

/-- Inverting the end anchor. -/
theorem eos_sound {f : Nat} {s : List Char} {caps : Caps}
    {q : Caps × List Char × List Char} (h : q ∈ reMs f .eos s caps) :
    q = (caps, [], []) ∧ s = [] := by
  cases f with
  | zero => simp [reMs] at h
  | succ f =>
    by_cases hs : s.isEmpty = true
    · rw [List.isEmpty_iff] at hs
      subst hs
      simp [reMs] at h
      subst h
      exact ⟨rfl, rfl⟩
    · simp [reMs, hs] at h

/-- Inverting a concatenation. -/
theorem cat_inv {f : Nat} {a b : RE} {s : List Char} {caps : Caps}
    {q : Caps × List Char × List Char} (h : q ∈ reMs f (.cat a b) s caps) :
    ∃ f', f = f' + 1 ∧ ∃ u ∈ reMs f' a s caps, ∃ w ∈ reMs f' b u.2.2 u.1,
      q = (w.1, u.2.1 ++ w.2.1, w.2.2) := by
  cases f with
  | zero => simp [reMs] at h
  | succ f =>
    refine ⟨f, rfl, ?_⟩
    simp only [reMs, List.mem_flatMap, List.mem_map] at h
    obtain ⟨u, hu, w, hw, hq⟩ := h
    exact ⟨u, hu, w, hw, hq.symm⟩

/-- Inverting a capture group: the captured substring is exactly what the
body consumed, pushed onto the environment. -/
theorem group_inv {f : Nat} {n : Nat} {r : RE} {s : List Char} {caps : Caps}
    {q : Caps × List Char × List Char} (h : q ∈ reMs f (.group n r) s caps) :
    ∃ f' u, f = f' + 1 ∧ u ∈ reMs f' r s caps ∧
      q = ((n, u.2.1) :: u.1, u.2.1, u.2.2) := by
  cases f with
  | zero => simp [reMs] at h
  | succ f =>
    simp only [reMs, List.mem_map] at h
    obtain ⟨u, hu, hq⟩ := h
    exact ⟨f, u, rfl, hu, hq.symm⟩

/-! ### Monotonicity and completeness of the matcher -/

/-- More fuel only adds results. -/
theorem reMs_mono {f g : Nat} {r : RE} {s : List Char} {caps : Caps}
    {q : Caps × List Char × List Char} (hfg : f ≤ g)
    (h : q ∈ reMs f r s caps) : q ∈ reMs g r s caps := by
  induction f generalizing g r s caps q with
  | zero => simp [reMs] at h
  | succ f ih =>
    cases g with
    | zero => omega
    | succ g =>
      have hfg' : f ≤ g := by omega
      cases r with
      | eps =>
        simp only [reMs] at h ⊢
        exact h
      | cls p =>
        simp only [reMs] at h ⊢
        exact h
      | lit l =>
        simp only [reMs] at h ⊢
        exact h
      | eos =>
        simp only [reMs] at h ⊢
        exact h
      | cat a b =>
        simp only [reMs, List.mem_flatMap, List.mem_map] at h ⊢
        obtain ⟨u, hu, w, hw, hq⟩ := h
        exact ⟨u, ih hfg' hu, w, ih hfg' hw, hq⟩
      | alt a b =>
        simp only [reMs, List.mem_append] at h ⊢
        rcases h with h | h
        · exact Or.inl (ih hfg' h)
        · exact Or.inr (ih hfg' h)
      | starG r =>
        simp only [reMs, List.mem_append, List.mem_flatMap,
          List.mem_singleton] at h ⊢
        rcases h with ⟨u, hu, hin⟩ | h
        · refine Or.inl ⟨u, ih hfg' hu, ?_⟩
          by_cases he : u.2.1.isEmpty = true
          · simp [he] at hin
          · simp only [he, Bool.false_eq_true, if_false, List.mem_map]
              at hin ⊢
            obtain ⟨w, hw, hq⟩ := hin
            exact ⟨w, ih hfg' hw, hq⟩
        · exact Or.inr h
      | starL r =>
        simp only [reMs, List.mem_cons, List.mem_flatMap] at h ⊢
        rcases h with h | ⟨u, hu, hin⟩
        · exact Or.inl h
        · refine Or.inr ⟨u, ih hfg' hu, ?_⟩
          by_cases he : u.2.1.isEmpty = true
          · simp [he] at hin
          · simp only [he, Bool.false_eq_true, if_false, List.mem_map]
              at hin ⊢
            obtain ⟨w, hw, hq⟩ := hin
            exact ⟨w, ih hfg' hw, hq⟩
      | plusG r =>
        simp only [reMs, List.mem_flatMap, List.mem_map] at h ⊢
        obtain ⟨u, hu, w, hw, hq⟩ := h
        exact ⟨u, ih hfg' hu, w, ih hfg' hw, hq⟩
      | optG r =>
        simp only [reMs, List.mem_append, List.mem_singleton] at h ⊢
        rcases h with h | h
        · exact Or.inl (ih hfg' h)
        · exact Or.inr h
      | group n r =>
        simp only [reMs, List.mem_map] at h ⊢
        obtain ⟨u, hu, hq⟩ := h
        exact ⟨u, ih hfg' hu, hq⟩

/-- A class matches its character whenever any fuel is available. -/
theorem cls_complete {p : Char → Bool} {c : Char} (hc : p c = true)
    (s : List Char) (caps : Caps) {f : Nat} (hf : 1 ≤ f) :
    (caps, [c], s) ∈ reMs f (.cls p) (c :: s) caps := by
  cases f with
  | zero => omega
  | succ f => simp [reMs, hc]

/-- A greedy class star can consume any run of class characters. -/
theorem starG_cls_complete {p : Char → Bool} {t : List Char}
    (ht : ∀ c ∈ t, p c = true) (s : List Char) (caps : Caps) {f : Nat}
    (hf : 2 * t.length + 1 ≤ f) :
    (caps, t, s) ∈ reMs f (.starG (.cls p)) (t ++ s) caps := by
  induction t generalizing f with
  | nil =>
    cases f with
    | zero => omega
    | succ f => simp [reMs]
  | cons c t' ih =>
    have hl : (c :: t').length = t'.length + 1 := List.length_cons c t'
    cases f with
    | zero => omega
    | succ f =>
      simp only [reMs, List.mem_append, List.mem_flatMap, List.mem_singleton]
      left
      refine ⟨(caps, [c], t' ++ s), ?_, ?_⟩
      · exact cls_complete (ht c (List.mem_cons_self c t')) (t' ++ s) caps
          (by omega)
      · simp only [List.isEmpty_cons, Bool.false_eq_true, if_false,
          List.mem_map]
        exact ⟨(caps, t', s),
          ih (fun d hd => ht d (List.mem_cons_of_mem c hd)) (by omega), rfl⟩

/-- A lazy class star can consume any run of class characters. -/
theorem starL_cls_complete {p : Char → Bool} {t : List Char}
    (ht : ∀ c ∈ t, p c = true) (s : List Char) (caps : Caps) {f : Nat}
    (hf : 2 * t.length + 1 ≤ f) :
    (caps, t, s) ∈ reMs f (.starL (.cls p)) (t ++ s) caps := by
  induction t generalizing f with
  | nil =>
    cases f with
    | zero => omega
    | succ f => simp [reMs]
  | cons c t' ih =>
    have hl : (c :: t').length = t'.length + 1 := List.length_cons c t'
    cases f with
    | zero => omega
    | succ f =>
      simp only [reMs, List.mem_cons, List.mem_flatMap]
      refine Or.inr ⟨(caps, [c], t' ++ s), ?_, ?_⟩
      · exact cls_complete (ht c (List.mem_cons_self c t')) (t' ++ s) caps
          (by omega)
      · simp only [List.isEmpty_cons, Bool.false_eq_true, if_false,
          List.mem_map]
        exact ⟨(caps, t', s),
          ih (fun d hd => ht d (List.mem_cons_of_mem c hd)) (by omega), rfl⟩

/-- A greedy class plus can consume any non-empty run of class characters. -/
theorem plusG_cls_complete {p : Char → Bool} {t : List Char}
    (ht : ∀ c ∈ t, p c = true) (hne : t ≠ []) (s : List Char) (caps : Caps)
    {f : Nat} (hf : 2 * t.length + 2 ≤ f) :
    (caps, t, s) ∈ reMs f (.plusG (.cls p)) (t ++ s) caps := by
  cases t with
  | nil => exact absurd rfl hne
  | cons c t' =>
    have hl : (c :: t').length = t'.length + 1 := List.length_cons c t'
    cases f with
    | zero => omega
    | succ f =>
      simp only [reMs, List.mem_flatMap, List.mem_map]
      refine ⟨(caps, [c], t' ++ s), ?_, (caps, t', s), ?_, rfl⟩
      · exact cls_complete (ht c (List.mem_cons_self c t')) (t' ++ s) caps
          (by omega)
      · exact starG_cls_complete (fun d hd => ht d (List.mem_cons_of_mem c hd))
          s caps (by omega)

/-- Composing memberships through a concatenation node. -/
theorem cat_complete {f : Nat} {a b : RE} {s sa sw : List Char}
    {caps ca cw : Caps} {ta tw : List Char}
    (hu : (ca, ta, sa) ∈ reMs f a s caps)
    (hw : (cw, tw, sw) ∈ reMs f b sa ca) :
    (cw, ta ++ tw, sw) ∈ reMs (f + 1) (.cat a b) s caps := by
  simp only [reMs, List.mem_flatMap, List.mem_map]
  exact ⟨(ca, ta, sa), hu, (cw, tw, sw), hw, rfl⟩

/-- Wrapping a membership in a capture group. -/
theorem group_complete {f n : Nat} {r : RE} {s s' t : List Char}
    {caps cu : Caps} (hu : (cu, t, s') ∈ reMs f r s caps) :
    ((n, t) :: cu, t, s') ∈ reMs (f + 1) (.group n r) s caps := by
  simp only [reMs, List.mem_map]
  exact ⟨(cu, t, s'), hu, rfl⟩

/-- The end anchor matches the empty rest. -/
theorem eos_complete (caps : Caps) {f : Nat} (hf : 1 ≤ f) :
    (caps, [], ([] : List Char)) ∈ reMs f .eos [] caps := by
  cases f with
  | zero => omega
  | succ f => simp [reMs]

/-! ### Pattern-level soundness and completeness -/

/-- Soundness of the two-group pattern shape
`(A)(sep+)(dig+)T` with group-free `A` and `T`: a successful match binds
group 1 and group 2, and group 2 captures a non-empty run of `dig`
characters. -/
theorem shape2_sound {A T : RE} (hA : A.gfree = true) (hT : T.gfree = true)
    {sep dig : Char → Bool} {f : Nat} {s : List Char} {caps : Caps}
    {q : Caps × List Char × List Char}
    (h : q ∈ reMs f (RE.cat (.group 1 A)
      (RE.cat (.plusG (.cls sep))
        (RE.cat (.group 2 (.plusG (.cls dig))) T))) s caps) :
    ∃ t1 t2, q.1 = (2, t2) :: (1, t1) :: caps ∧ t2 ≠ [] ∧
      ∀ c ∈ t2, dig c = true := by
  obtain ⟨f1, -, u, hu, w, hw, hq⟩ := cat_inv h
  obtain ⟨f3, -, v, hv, x, hx, hwq⟩ := cat_inv hw
  obtain ⟨f4, -, y, hy, z, hz, hxq⟩ := cat_inv hx
  obtain ⟨f2, u2, -, hu2, huq⟩ := group_inv hu
  obtain ⟨f5, y2, -, hy2, hyq⟩ := group_inv hy
  have hu2c : u2.1 = caps := reMs_gfree hA hu2
  have hvc : v.1 = u.1 := (plusG_cls_sound hv).1
  obtain ⟨hy2c, hy2ne, hy2all⟩ := plusG_cls_sound hy2
  have hzc : z.1 = y.1 := reMs_gfree hT hz
  refine ⟨u2.2.1, y2.2.1, ?_, hy2ne, hy2all⟩
  have e1 : q.1 = w.1 := by rw [hq]
  have e2 : w.1 = x.1 := by rw [hwq]
  have e3 : x.1 = z.1 := by rw [hxq]
  have e5 : y.1 = (2, y2.2.1) :: y2.1 := by rw [hyq]
  have e8 : u.1 = (1, u2.2.1) :: u2.1 := by rw [huq]
  rw [e1, e2, e3, hzc, e5, hy2c, hvc, e8, hu2c]

/-- The common trailing `\s*$` of the patterns consumes only whitespace and
forces the match to reach the end of the line. -/
theorem tail_ws_eos_sound {f : Nat} {s : List Char} {caps : Caps}
    {q : Caps × List Char × List Char}
    (h : q ∈ reMs f (RE.cat (.starG (.cls wsCls)) RE.eos) s caps) :
    (∀ ch ∈ q.2.1, wsCls ch = true) ∧ q.2.2 = [] := by
  obtain ⟨f1, -, u, hu, w, hw, hq⟩ := cat_inv h
  obtain ⟨-, hall⟩ := starG_cls_sound hu
  obtain ⟨hw1, -⟩ := eos_sound hw
  constructor
  · intro ch hch
    have : q.2.1 = u.2.1 ++ w.2.1 := by rw [hq]
    rw [this, hw1] at hch
    simp only [List.append_nil] at hch
    exact hall ch hch
  · have : q.2.2 = w.2.2 := by rw [hq]
    rw [this, hw1]

/-- A successful match of the numbered-heading rule `commonPat3` decomposes
the line as `chapter-part ++ separator-run ++ digit-run ++ whitespace`. -/
theorem commonPat3_sound {f : Nat} {s : List Char} {caps : Caps}
    {q : Caps × List Char × List Char} (h : q ∈ reMs f commonPat3 s caps) :
    ∃ a b c d, s = a ++ (b ++ (c ++ d)) ∧ b ≠ [] ∧
      (∀ ch ∈ b, sepDotCls ch = true) ∧ c ≠ [] ∧
      (∀ ch ∈ c, isDigitRe ch = true) ∧ (∀ ch ∈ d, wsCls ch = true) := by
  obtain ⟨f1, -, u0, hu0, w, hw, -⟩ := cat_inv h
  obtain ⟨f2, -, u1, hu1, w2, hw2, -⟩ := cat_inv hw
  obtain ⟨f3, -, v, hv, x, hx, -⟩ := cat_inv hw2
  obtain ⟨f4, -, y, hy, z, hz, -⟩ := cat_inv hx
  obtain ⟨-, hvne, hvall⟩ := plusG_cls_sound hv
  obtain ⟨f5, y2, -, hy2, hyq⟩ := group_inv hy
  obtain ⟨-, hy2ne, hy2all⟩ := plusG_cls_sound hy2
  obtain ⟨hzall, hzrest⟩ := tail_ws_eos_sound hz
  have es : s = u0.2.1 ++ u0.2.2 := reMs_consumed hu0
  have e1 : u0.2.2 = u1.2.1 ++ u1.2.2 := reMs_consumed hu1
  have e2 : u1.2.2 = v.2.1 ++ v.2.2 := reMs_consumed hv
  have e3 : v.2.2 = y.2.1 ++ y.2.2 := reMs_consumed hy
  have e4 : y.2.2 = z.2.1 ++ z.2.2 := reMs_consumed hz
  have ey : y.2.1 = y2.2.1 := by rw [hyq]
  refine ⟨u0.2.1 ++ u1.2.1, v.2.1, y2.2.1, z.2.1, ?_, hvne, hvall, hy2ne,
    hy2all, hzall⟩
  rw [es, e1, e2, e3, e4, hzrest, ey]
  simp [List.append_assoc]

/-- Completeness of the dot-leader rule `commonPat1`: any line of the form
`chapter ++ separator-run ++ digit-run ++ whitespace` (no newline in the
chapter part) matches it. -/
theorem commonPat1_complete {a b c d : List Char}
    (ha : ∀ ch ∈ a, anyCls ch = true) (hb : b ≠ [])
    (hb' : ∀ ch ∈ b, sepDotCls ch = true) (hc : c ≠ [])
    (hc' : ∀ ch ∈ c, isDigitRe ch = true) (hd : ∀ ch ∈ d, wsCls ch = true) :
    reMs (matchFuel commonPat1 (a ++ (b ++ (c ++ d)))) commonPat1
      (a ++ (b ++ (c ++ d))) [] ≠ [] := by
  set N : Nat := 2 * (a.length + b.length + c.length + d.length) + 2 with hN
  have hm1 : (([] : Caps), a, b ++ (c ++ d)) ∈
      reMs N (.starL (.cls anyCls)) (a ++ (b ++ (c ++ d))) [] :=
    starL_cls_complete ha (b ++ (c ++ d)) [] (by omega)
  have hg1 : ([(1, a)], a, b ++ (c ++ d)) ∈
      reMs (N + 1) (.group 1 (.starL (.cls anyCls))) (a ++ (b ++ (c ++ d)))
        [] := group_complete hm1
  have hm2 : ([(1, a)], b, c ++ d) ∈
      reMs N (.plusG (.cls sepDotCls)) (b ++ (c ++ d)) [(1, a)] :=
    plusG_cls_complete hb' hb (c ++ d) [(1, a)] (by omega)
  have hm3 : ([(1, a)], c, d) ∈
      reMs N (.plusG (.cls isDigitRe)) (c ++ d) [(1, a)] :=
    plusG_cls_complete hc' hc d [(1, a)] (by omega)
  have hg2 : ([(2, c), (1, a)], c, d) ∈
      reMs (N + 1) (.group 2 (.plusG (.cls isDigitRe))) (c ++ d) [(1, a)] :=
    group_complete hm3
  have hm4 : ([(2, c), (1, a)], d, ([] : List Char)) ∈
      reMs N (.starG (.cls wsCls)) d [(2, c), (1, a)] := by
    have h0 : ([(2, c), (1, a)], d, ([] : List Char)) ∈
        reMs N (.starG (.cls wsCls)) (d ++ []) [(2, c), (1, a)] :=
      starG_cls_complete hd [] ([(2, c), (1, a)] : Caps) (by omega)
    rwa [List.append_nil] at h0
  have hm5 : (([(2, c), (1, a)] : Caps), [], ([] : List Char)) ∈
      reMs N .eos [] [(2, c), (1, a)] := eos_complete _ (by omega)
  have h45 : ([(2, c), (1, a)], d, ([] : List Char)) ∈
      reMs (N + 1) (RE.cat (.starG (.cls wsCls)) .eos) d
        [(2, c), (1, a)] := by
    have := cat_complete hm4 hm5
    rwa [List.append_nil] at this
  have h345 : ([(2, c), (1, a)], c ++ d, ([] : List Char)) ∈
      reMs (N + 2) (RE.cat (.group 2 (.plusG (.cls isDigitRe)))
        (RE.cat (.starG (.cls wsCls)) .eos)) (c ++ d) [(1, a)] :=
    cat_complete (reMs_mono (by omega) hg2) (reMs_mono (by omega) h45)
  have h2345 : ([(2, c), (1, a)], b ++ (c ++ d), ([] : List Char)) ∈
      reMs (N + 3) (RE.cat (.plusG (.cls sepDotCls))
        (RE.cat (.group 2 (.plusG (.cls isDigitRe)))
          (RE.cat (.starG (.cls wsCls)) .eos))) (b ++ (c ++ d)) [(1, a)] :=
    cat_complete (reMs_mono (by omega) hm2) (reMs_mono (by omega) h345)
  have hall : ([(2, c), (1, a)], a ++ (b ++ (c ++ d)), ([] : List Char)) ∈
      reMs (N + 4) commonPat1 (a ++ (b ++ (c ++ d))) [] :=
    cat_complete (reMs_mono (by omega) hg1) (reMs_mono (by omega) h2345)
  have hsz : RE.size commonPat1 = 15 := rfl
  have hlen : (a ++ (b ++ (c ++ d))).length
      = a.length + b.length + c.length + d.length := by
    simp [List.length_append]
    omega
  have hfin : N + 4 ≤ matchFuel commonPat1 (a ++ (b ++ (c ++ d))) := by
    rw [matchFuel, hsz, hlen]
    omega
  exact List.ne_nil_of_mem (reMs_mono hfin hall)

/-- Digits (of either alphabet) are not whitespace. -/
theorem digit_not_ws {c : Char}
    (h : (isArabicDigitChar c || isDevDigitChar c) = true) : wsCls c = false := by
  rw [Bool.or_eq_true] at h
  simp only [isArabicDigitChar, isDevDigitChar, decide_eq_true_eq] at h
  simp only [wsCls, decide_eq_false_iff_not]
  omega

/-- The Hindi page class is the union of the two digit alphabets. -/
theorem uniDigitCls_eq (c : Char) :
    uniDigitCls c = (isArabicDigitChar c || isDevDigitChar c) := by
  unfold uniDigitCls isDigitRe
  cases isArabicDigitChar c <;> cases isDevDigitChar c <;> rfl

/-- Extracting the head match from `pyMatch`. -/
theorem pyMatch_some_mem {p : RE} {line : List Char} {caps : Caps}
    (h : pyMatch p line = some caps) :
    ∃ q ∈ reMs (matchFuel p line) p line [], q.1 = caps := by
  unfold pyMatch at h
  rw [Option.map_eq_some'] at h
  obtain ⟨q, hq, hq1⟩ := h
  exact ⟨q, head?_mem hq, hq1⟩

/-- A successful match of `commonPat1` binds exactly groups 1 and 2, group 2
being a non-empty digit run. -/
theorem commonPat1_match_sound {line : List Char} {caps : Caps}
    (h : pyMatch commonPat1 line = some caps) :
    ∃ t1 t2, caps = [(2, t2), (1, t1)] ∧ t2 ≠ [] ∧
      ∀ c ∈ t2, isDigitRe c = true := by
  obtain ⟨q, hq, hq1⟩ := pyMatch_some_mem h
  obtain ⟨t1, t2, hc, hne, hall⟩ := shape2_sound
    (show (RE.starL (RE.cls anyCls)).gfree = true from rfl)
    (show (RE.cat (RE.starG (RE.cls wsCls)) RE.eos).gfree = true from rfl) hq
  exact ⟨t1, t2, by rw [← hq1, hc], hne, hall⟩

/-- A successful match of `commonPat2` binds exactly groups 1 and 2, group 2
being a non-empty digit run. -/
theorem commonPat2_match_sound {line : List Char} {caps : Caps}
    (h : pyMatch commonPat2 line = some caps) :
    ∃ t1 t2, caps = [(2, t2), (1, t1)] ∧ t2 ≠ [] ∧
      ∀ c ∈ t2, isDigitRe c = true := by
  obtain ⟨q, hq, hq1⟩ := pyMatch_some_mem h
  obtain ⟨t1, t2, hc, hne, hall⟩ := shape2_sound
    (show (RE.starL (RE.cls anyCls)).gfree = true from rfl)
    (show (RE.cat (RE.starG (RE.cls wsCls)) RE.eos).gfree = true from rfl) hq
  exact ⟨t1, t2, by rw [← hq1, hc], hne, hall⟩

/-- A successful match of the Hindi catch-all `hindiPat5` binds exactly
groups 1 and 2, group 2 being a non-empty run over the Hindi page class. -/
theorem hindiPat5_match_sound {line : List Char} {caps : Caps}
    (h : pyMatch hindiPat5 line = some caps) :
    ∃ t1 t2, caps = [(2, t2), (1, t1)] ∧ t2 ≠ [] ∧
      ∀ c ∈ t2, uniDigitCls c = true := by
  obtain ⟨q, hq, hq1⟩ := pyMatch_some_mem h
  obtain ⟨t1, t2, hc, hne, hall⟩ := shape2_sound
    (show (RE.starL (RE.cls anyCls)).gfree = true from rfl)
    (show RE.eos.gfree = true from rfl) hq
  exact ⟨t1, t2, by rw [← hq1, hc], hne, hall⟩

/-- When a two-group pattern matches with a digit-run page capture, the
pattern's loop body accepts it: the page is valid, so the entry is built
from the stripped group 1 and the normalized group 2. -/
theorem tryPatternT_some_of_caps {line : List Char} {p : RE}
    {t1 t2 : List Char} (hng : p.numGroups = 2)
    (hm : pyMatch p line = some [(2, t2), (1, t1)]) (ht2ne : t2 ≠ [])
    (ht2 : ∀ c ∈ t2, (isArabicDigitChar c || isDevDigitChar c) = true) :
    tryPatternT line p = some (⟨pyStrip t1, convert_hindi_digits t2⟩, t2) := by
  have hst : pyStrip t2 = t2 :=
    pyStrip_of_forall_not_ws (fun c hc => digit_not_ws (ht2 c hc))
  have hv : is_valid_page_number (pyStrip t2) = true := by
    rw [hst]
    unfold is_valid_page_number
    rw [Bool.and_eq_true]
    constructor
    · cases t2 with
      | nil => exact absurd rfl ht2ne
      | cons c t => rfl
    · rw [List.all_eq_true]
      exact ht2
  have hv2 : is_valid_page_number t2 = true := by rw [← hst]; exact hv
  simp only [tryPatternT, hm, hng, capLookup]
  norm_num
  simp [hv2, hst]

/-- If `commonPat1` matches a line, its loop body produces an entry. -/
theorem commonPat1_try_some {line : List Char} {caps : Caps}
    (h : pyMatch commonPat1 line = some caps) :
    ∃ e, tryPatternT line commonPat1 = some e := by
  obtain ⟨t1, t2, rfl, hne, hall⟩ := commonPat1_match_sound h
  exact ⟨_, tryPatternT_some_of_caps rfl h hne (fun c hc => hall c hc)⟩

/-- If `commonPat2` matches a line, its loop body produces an entry. -/
theorem commonPat2_try_some {line : List Char} {caps : Caps}
    (h : pyMatch commonPat2 line = some caps) :
    ∃ e, tryPatternT line commonPat2 = some e := by
  obtain ⟨t1, t2, rfl, hne, hall⟩ := commonPat2_match_sound h
  exact ⟨_, tryPatternT_some_of_caps rfl h hne (fun c hc => hall c hc)⟩

/-- If the `commonPat1` loop body produces nothing, the pattern did not
match at all. -/
theorem commonPat1_no_match_of_try_none {line : List Char}
    (h : tryPatternT line commonPat1 = none) :
    pyMatch commonPat1 line = none := by
  cases hm : pyMatch commonPat1 line with
  | none => rfl
  | some caps =>
    obtain ⟨e, he⟩ := commonPat1_try_some hm
    rw [he] at h
    cases h

/-- A line matched by the numbered-heading rule `commonPat3` is also
matched by the dot-leader rule `commonPat1` (for genuine lines, which never
contain a newline). -/
theorem commonPat1_match_of_pat3 {line : List Char} (hnl : '\n' ∉ line)
    {caps : Caps} (hm : pyMatch commonPat3 line = some caps) :
    pyMatch commonPat1 line ≠ none := by
  obtain ⟨q, hq, -⟩ := pyMatch_some_mem hm
  obtain ⟨a, b, c, d, hs, hbne, hball, hcne, hcall, hdall⟩ :=
    commonPat3_sound hq
  have ha : ∀ ch ∈ a, anyCls ch = true := by
    intro ch hch
    have hmem : ch ∈ line := by
      rw [hs]
      exact List.mem_append.mpr (Or.inl hch)
    simp only [anyCls, decide_eq_true_eq]
    intro heq
    rw [heq] at hmem
    exact hnl hmem
  have hne := commonPat1_complete ha hbne hball hcne hcall hdall
  rw [hs]
  unfold pyMatch
  intro hcon
  rw [Option.map_eq_none'] at hcon
  rw [List.head?_eq_none_iff] at hcon
  exact hne hcon

/-- Inverting `firstSome`. -/
theorem firstSome_eq_some {f : α → Option β} {l : List α} {b : β}
    (h : firstSome f l = some b) : ∃ a ∈ l, f a = some b := by
  induction l with
  | nil => simp [firstSome] at h
  | cons a l ih =>
    rw [firstSome] at h
    cases hf : f a with
    | some c =>
      rw [hf] at h
      simp only [] at h
      exact ⟨a, List.mem_cons_self a l, by rw [hf, h]⟩
    | none =>
      rw [hf] at h
      simp only [] at h
      obtain ⟨a', ha', hfa'⟩ := ih h
      exact ⟨a', List.mem_cons_of_mem a ha', hfa'⟩

/-! ### Claim-comparison variants of the pipeline -/

/-- The Latin rule list without its third rule, for the shadowing claim. -/
def common_patterns_noThird : List RE := [commonPat1, commonPat2]

/-- `parse_toc`'s line loop in Latin mode with `common_patterns_noThird`
instead of `common_patterns`; otherwise identical to `processLine`. -/
def processLineNoThird (rawLine : List Char) : Option TocEntry :=
  let line := pyStrip rawLine
  if line.isEmpty || line.length < 5 then none
  else if skip_terms_eng.any (fun term => containsSub term (pyLower line))
    then none
  else (firstSome (tryPatternT line) common_patterns_noThird).map Prod.fst

/-- Latin-mode `parse_toc` with the third rule removed. -/
def parse_toc_noThird (text : List Char) : List TocEntry :=
  (pySplit text).filterMap processLineNoThird

/-- Modelled from the spec (§4.3 step 4): the loop body with the
trailing-digit fallback applied only when the matched rule is not the
catch-all rule; for `isCatchAll = true` an invalid page capture makes the
line contribute nothing. -/
def tryPatternGatedT (isCatchAll : Bool) (line : List Char) (p : RE) :
    Option (TocEntry × List Char) :=
  match pyMatch p line with
  | none => none
  | some caps =>
    let chPg : Option (List Char × List Char) :=
      if p.numGroups = 2 then
        match capLookup 1 caps, capLookup 2 caps with
        | some g1, some g2 => some (pyStrip g1, pyStrip g2)
        | _, _ => none
      else if p.numGroups = 3 then
        match capLookup 1 caps, capLookup 2 caps, capLookup 3 caps with
        | some g1, some g2, some g3 =>
          some (pyStrip (g1 ++ ' ' :: g2), pyStrip g3)
        | _, _, _ => none
      else none
    match chPg with
    | none => none
    | some (chapter, page) =>
      if is_valid_page_number page then
        some (⟨chapter, convert_hindi_digits page⟩, page)
      else if isCatchAll then none
      else
        match reSearch fallbackPat line with
        | some (start, fcaps) =>
          match capLookup 1 fcaps with
          | some pg =>
            if is_valid_page_number pg then
              some (⟨pyStrip (line.take start), convert_hindi_digits pg⟩, pg)
            else none
          | none => none
        | none => none

/-- The Hindi rule list tagged with the catch-all flag: only the generic
trailing-digit rule `hindiPat5` is the catch-all. -/
def hindi_patterns_flagged : List (RE × Bool) :=
  [(hindiPat1, false), (hindiPat2, false), (hindiPat3, false),
   (hindiPat4, false), (hindiPat5, true)]

/-- Hindi-mode line loop with the gated fallback of the spec. -/
def processLineHindiGated (rawLine : List Char) : Option TocEntry :=
  let line := pyStrip rawLine
  if line.isEmpty || line.length < 5 then none
  else if skip_terms_hindi.any (fun term => containsSub term (pyLower line))
    then none
  else (firstSome (fun pr => tryPatternGatedT pr.2 line pr.1)
    hindi_patterns_flagged).map Prod.fst

/-- Hindi-mode `parse_toc` with the spec's gated fallback. -/
def parse_toc_hindi_gated (text : List Char) : List TocEntry :=
  (pySplit text).filterMap processLineHindiGated

/-- For a rule that is not the catch-all, the gated loop body is the
original loop body. -/
theorem tryPatternGatedT_false (line : List Char) (p : RE) :
    tryPatternGatedT false line p = tryPatternT line p := by
  unfold tryPatternGatedT tryPatternT
  cases pyMatch p line with
  | none => rfl
  | some caps => simp

/-- The gated loop body agrees with the original one on the Hindi
catch-all rule: its page capture is always a valid page token, so the
fallback (the only place the two differ) is never reached. -/
theorem tryPatternGatedT_h5 (line : List Char) :
    tryPatternGatedT true line hindiPat5 = tryPatternT line hindiPat5 := by
  cases hm : pyMatch hindiPat5 line with
  | none =>
    unfold tryPatternGatedT tryPatternT
    rw [hm]
  | some caps =>
    obtain ⟨t1, t2, rfl, hne, hall⟩ := hindiPat5_match_sound hm
    have hst : pyStrip t2 = t2 :=
      pyStrip_of_forall_not_ws (fun c hc =>
        digit_not_ws (by rw [← uniDigitCls_eq]; exact hall c hc))
    have hv2 : is_valid_page_number t2 = true := by
      unfold is_valid_page_number
      rw [Bool.and_eq_true]
      constructor
      · cases t2 with
        | nil => exact absurd rfl hne
        | cons c t => rfl
      · rw [List.all_eq_true]
        intro c hc
        rw [← uniDigitCls_eq]
        exact hall c hc
    have hng : hindiPat5.numGroups = 2 := rfl
    unfold tryPatternGatedT tryPatternT
    rw [hm]
    simp [hng, capLookup, hst, hv2]

/-- The Hindi line loop is unchanged by gating the fallback off for the
catch-all rule. -/
theorem processLine_eq_hindiGated (rawLine : List Char) :
    processLine true rawLine = processLineHindiGated rawLine := by
  simp only [processLine, processLineT, processLineHindiGated]
  by_cases h1 : ((pyStrip rawLine).isEmpty
      || decide ((pyStrip rawLine).length < 5)) = true
  · simp [h1]
  · by_cases h2 : (skip_terms_hindi.any
        (fun term => containsSub term (pyLower (pyStrip rawLine)))) = true
    · simp [h1, h2]
    · simp only [h1, h2, Bool.false_eq_true, if_false, if_true]
      have e1 := tryPatternGatedT_false (pyStrip rawLine) hindiPat1
      have e2 := tryPatternGatedT_false (pyStrip rawLine) hindiPat2
      have e3 := tryPatternGatedT_false (pyStrip rawLine) hindiPat3
      have e4 := tryPatternGatedT_false (pyStrip rawLine) hindiPat4
      have e5 := tryPatternGatedT_h5 (pyStrip rawLine)
      simp [hindi_patterns, hindi_patterns_flagged, firstSome, e1, e2, e3,
        e4, e5]

/-- Hindi-mode `parse_toc` is unchanged by gating the fallback off for the
catch-all rule. -/
theorem parse_toc_eq_hindiGated (text : List Char) :
    parse_toc text true = parse_toc_hindi_gated text :=
  List.filterMap_congr (fun l _ => processLine_eq_hindiGated l)

/-- The Latin line loop is unchanged by dropping the third rule. -/
theorem processLine_eq_noThird {rawLine : List Char} (hnl : '\n' ∉ rawLine) :
    processLine false rawLine = processLineNoThird rawLine := by
  have hnl' : '\n' ∉ pyStrip rawLine := fun hm => hnl (mem_pyStrip hm)
  simp only [processLine, processLineT, processLineNoThird]
  by_cases h1 : ((pyStrip rawLine).isEmpty
      || decide ((pyStrip rawLine).length < 5)) = true
  · simp [h1]
  · by_cases h2 : (skip_terms_eng.any
        (fun term => containsSub term (pyLower (pyStrip rawLine)))) = true
    · simp [h1, h2]
    · simp only [h1, h2, Bool.false_eq_true, if_false, if_true]
      cases hp1 : tryPatternT (pyStrip rawLine) commonPat1 with
      | some e =>
        simp [common_patterns, common_patterns_noThird, firstSome, hp1]
      | none =>
        cases hp2 : tryPatternT (pyStrip rawLine) commonPat2 with
        | some e =>
          simp [common_patterns, common_patterns_noThird, firstSome, hp1, hp2]
        | none =>
          have hm1 : pyMatch commonPat1 (pyStrip rawLine) = none :=
            commonPat1_no_match_of_try_none hp1
          have hp3 : tryPatternT (pyStrip rawLine) commonPat3 = none := by
            cases hm3 : pyMatch commonPat3 (pyStrip rawLine) with
            | none =>
              unfold tryPatternT
              rw [hm3]
            | some caps => exact absurd hm1 (commonPat1_match_of_pat3 hnl' hm3)
          simp [common_patterns, common_patterns_noThird, firstSome, hp1,
            hp2, hp3]

/-- Latin-mode `parse_toc` is unchanged by dropping the third rule. -/
theorem parse_toc_eq_noThird (text : List Char) :
    parse_toc text false = parse_toc_noThird text :=
  List.filterMap_congr
    (fun l hl => processLine_eq_noThird (newline_not_mem_pySplit hl))

/-! ### Facts about the digit normalizer -/

/-- Normalizing a character either leaves it alone or yields an Arabic
digit. -/
theorem convertHindiDigitChar_cases (c : Char) :
    convertHindiDigitChar c = c ∨
      isArabicDigitChar (convertHindiDigitChar c) = true := by
  unfold convertHindiDigitChar
  split_ifs <;> first | exact Or.inl rfl | exact Or.inr (by decide)

/-- Arabic digits are fixed points of the normalizer. -/
theorem convertHindiDigitChar_fix_arabic {c : Char}
    (h : isArabicDigitChar c = true) : convertHindiDigitChar c = c := by
  simp only [isArabicDigitChar, decide_eq_true_eq] at h
  unfold convertHindiDigitChar
  split_ifs with h1 h2 h3 h4 h5 h6 h7 h8 h9 h10 <;>
    first | rfl | (subst_vars; exact absurd h (by decide))

/-- The per-character normalizer is idempotent. -/
theorem convertHindiDigitChar_idem (c : Char) :
    convertHindiDigitChar (convertHindiDigitChar c)
      = convertHindiDigitChar c := by
  rcases convertHindiDigitChar_cases c with h | h
  · rw [h]
    exact h
  · exact convertHindiDigitChar_fix_arabic h

/-! ### Shape of the chapters the loop body produces -/

/-- Every entry the loop body emits has a chapter of the form
`pyStrip x` for some string `x`. -/
theorem tryPatternT_chapter_strip {line : List Char} {p : RE} {e : TocEntry}
    {raw : List Char} (h : tryPatternT line p = some (e, raw)) :
    ∃ x, e.chapter = pyStrip x := by
  unfold tryPatternT at h
  cases hm : pyMatch p line with
  | none =>
    rw [hm] at h
    simp at h
  | some caps =>
    rw [hm] at h
    by_cases h2 : p.numGroups = 2
    · simp only [h2, if_true] at h
      cases hl1 : capLookup 1 caps with
      | none =>
        rw [hl1] at h
        simp at h
      | some g1 =>
        rw [hl1] at h
        cases hl2 : capLookup 2 caps with
        | none =>
          rw [hl2] at h
          simp at h
        | some g2 =>
          rw [hl2] at h
          by_cases hv : is_valid_page_number (pyStrip g2) = true
          · simp only [hv, if_true, Option.some.injEq, Prod.mk.injEq] at h
            exact ⟨g1, by rw [← h.1]⟩
          · simp only [hv, Bool.false_eq_true, if_false] at h
            cases hs : reSearch fallbackPat line with
            | none =>
              rw [hs] at h
              simp at h
            | some pr =>
              obtain ⟨start, fcaps⟩ := pr
              rw [hs] at h
              simp only [] at h
              cases hlf : capLookup 1 fcaps with
              | none =>
                rw [hlf] at h
                simp at h
              | some pg =>
                rw [hlf] at h
                by_cases hv2 : is_valid_page_number pg = true
                · simp only [hv2, if_true, Option.some.injEq,
                    Prod.mk.injEq] at h
                  exact ⟨line.take start, by rw [← h.1]⟩
                · simp [hv2] at h
    · by_cases h3 : p.numGroups = 3
      · simp only [h2, h3, if_true, if_false] at h
        norm_num at h
        cases hl1 : capLookup 1 caps with
        | none =>
          rw [hl1] at h
          simp at h
        | some g1 =>
          rw [hl1] at h
          cases hl2 : capLookup 2 caps with
          | none =>
            rw [hl2] at h
            simp at h
          | some g2 =>
            rw [hl2] at h
            cases hl3 : capLookup 3 caps with
            | none =>
              rw [hl3] at h
              simp at h
            | some g3 =>
              rw [hl3] at h
              by_cases hv : is_valid_page_number (pyStrip g3) = true
              · simp only [hv, if_true, Option.some.injEq,
                  Prod.mk.injEq] at h
                exact ⟨g1 ++ ' ' :: g2, by rw [← h.1]⟩
              · simp only [hv, Bool.false_eq_true, if_false] at h
                cases hs : reSearch fallbackPat line with
                | none =>
                  rw [hs] at h
                  simp at h
                | some pr =>
                  obtain ⟨start, fcaps⟩ := pr
                  rw [hs] at h
                  simp only [] at h
                  cases hlf : capLookup 1 fcaps with
                  | none =>
                    rw [hlf] at h
                    simp at h
                  | some pg =>
                    rw [hlf] at h
                    by_cases hv2 : is_valid_page_number pg = true
                    · simp only [hv2, if_true, Option.some.injEq,
                        Prod.mk.injEq] at h
                      exact ⟨line.take start, by rw [← h.1]⟩
                    · simp [hv2] at h
      · simp [h2, h3] at h

/-! ### The guard steps of the line loop -/

/-- Short or administrative lines are skipped before any pattern is tried. -/
theorem processLine_skip {is_hindi : Bool} {rawLine : List Char}
    (h : (pyStrip rawLine).length < 5 ∨
      ((if is_hindi then skip_terms_hindi else skip_terms_eng).any
        (fun term => containsSub term (pyLower (pyStrip rawLine)))) = true) :
    processLine is_hindi rawLine = none := by
  simp only [processLine, processLineT]
  rcases h with h | h
  · have h1 : ((pyStrip rawLine).isEmpty
        || decide ((pyStrip rawLine).length < 5)) = true := by
      rw [Bool.or_eq_true]
      exact Or.inr (by simpa using h)
    simp [h1]
  · by_cases h1 : ((pyStrip rawLine).isEmpty
        || decide ((pyStrip rawLine).length < 5)) = true
    · simp [h1]
    · simp [h1, h]

/-- Splitting off the first page of `extract_text_from_pdf`. -/
theorem extract_text_cons (p : PdfPage) (ps : List PdfPage) :
    extract_text_from_pdf (p :: ps)
      = pageText p ++ '\n' :: extract_text_from_pdf ps := by
  unfold extract_text_from_pdf
  rw [List.foldl_cons, extract_foldl_acc]
  simp

/-! ### The claims -/

/-- C1: the spec's Scenario 3 says the Hindi-mode line
`"अध्याय १: परिचय १२"` yields an entry with page `"12"`.  The code disagrees:
`"अध्याय"` is in `skip_terms_hindi`, so the line is skipped before any
pattern — including the chapter-heading pattern whose own comment cites
exactly this line shape — can fire, and no entry is produced. -/
theorem claim_C1 :
    parse_toc "अध्याय १: परिचय १२".data true = [] ∧
    containsSub "अध्याय".data
      (pyLower (pyStrip "अध्याय १: परिचय १२".data)) = true := by
  constructor
  · decide
  · decide

/-- C2 counterexample: it is not true that every emitted entry's chapter is
non-empty after trimming — in Latin mode the line `"..... 12"` produces the
entry `{chapter: "", page: "12"}`. -/
theorem claim_C2_counterexample :
    ¬ (∀ (text : List Char) (m : Bool), ∀ e ∈ parse_toc text m,
        pyStrip e.chapter ≠ []) := by
  intro hcl
  exact hcl "..... 12".data false ⟨[], "12".data⟩ (by decide) (by decide)

/-- C2 (amended): every emitted entry's chapter field is whitespace-trimmed
(stripping it again changes nothing), though it may be empty. -/
theorem claim_C2 :
    ∀ (text : List Char) (m : Bool), ∀ e ∈ parse_toc text m,
      pyStrip e.chapter = e.chapter := by
  intro text m e he
  simp only [parse_toc, List.mem_filterMap] at he
  obtain ⟨l, hl, hpl⟩ := he
  rw [processLine, Option.map_eq_some'] at hpl
  obtain ⟨pr, hT, hfst⟩ := hpl
  cases m with
  | false =>
    simp only [processLineT, Bool.false_eq_true, if_false] at hT
    split at hT
    · cases hT
    · split at hT
      · cases hT
      · obtain ⟨p, hp, htp⟩ := firstSome_eq_some hT
        obtain ⟨x, hx⟩ := tryPatternT_chapter_strip
          (show tryPatternT (pyStrip l) p = some (pr.1, pr.2) from htp)
        rw [← hfst, hx, pyStrip_idem]
  | true =>
    simp only [processLineT, eq_self_iff_true, if_true] at hT
    split at hT
    · cases hT
    · split at hT
      · cases hT
      · obtain ⟨p, hp, htp⟩ := firstSome_eq_some hT
        obtain ⟨x, hx⟩ := tryPatternT_chapter_strip
          (show tryPatternT (pyStrip l) p = some (pr.1, pr.2) from htp)
        rw [← hfst, hx, pyStrip_idem]

/-- C2 witness: the amended claim applied to Scenario 1's line. -/
theorem claim_C2_witness :
    pyStrip ((⟨"Introduction".data, "5".data⟩ : TocEntry).chapter)
      = (⟨"Introduction".data, "5".data⟩ : TocEntry).chapter :=
  claim_C2 "Introduction.......... 5".data false _ (by decide)

/-- C3 counterexample: Latin-mode page validation is not restricted to the
Arabic digits 0-9 — the Latin-mode line `"Intro ५५"` is accepted with the
all-Devanagari pre-normalization token `"५५"` (`\d` matches Devanagari
digits and `is_valid_page_number` accepts both alphabets in both modes). -/
theorem claim_C3_counterexample :
    ¬ (∀ (line : List Char) (e : TocEntry) (raw : List Char),
        processLineT false line = some (e, raw) →
        ∀ c ∈ raw, isArabicDigitChar c = true) := by
  intro hcl
  have h5 := hcl "Intro ५५".data ⟨"Intro".data, "55".data⟩ "५५".data
    (by decide) '५' (by decide)
  exact absurd h5 (by decide)

/-- C3 (amended): page-token validation is mode-independent — a candidate
token is accepted iff it is non-empty and each character is an Arabic or a
Devanagari digit; tokens mixing the two alphabets are accepted, as the
emitted Hindi-mode entry for `"शीर्षक १2"` (raw token `"१2"`) shows, and
Latin mode accepts all-Devanagari tokens (`"Intro ५५"`). -/
theorem claim_C3 :
    (∀ s : List Char, is_valid_page_number s = true ↔
      (s ≠ [] ∧ ∀ c ∈ s, (isArabicDigitChar c || isDevDigitChar c) = true)) ∧
    processLineT true "शीर्षक १2".data
      = some (⟨"शीर्षक".data, "12".data⟩, "१2".data) ∧
    processLineT false "Intro ५५".data
      = some (⟨"Intro".data, "55".data⟩, "५५".data) := by
  refine ⟨?_, by decide, by decide⟩
  intro s
  unfold is_valid_page_number
  rw [Bool.and_eq_true, List.all_eq_true]
  constructor
  · rintro ⟨h1, h2⟩
    refine ⟨?_, h2⟩
    intro hnil
    subst hnil
    simp at h1
  · rintro ⟨h1, h2⟩
    refine ⟨?_, h2⟩
    cases s with
    | nil => exact absurd rfl h1
    | cons c t => rfl

/-- C3 witness: the amended validation rule accepts the mixed-alphabet
token `"१2"`. -/
theorem claim_C3_witness : is_valid_page_number "१2".data = true :=
  (claim_C3.1 "१2".data).mpr ⟨by decide, by decide⟩

/-- C4: the trailing-digit fallback only matters for non-catch-all rules.
The Hindi catch-all `hindiPat5` captures its page from the digit class, so
its capture always validates (first conjunct) and gating the fallback off
for the catch-all — the spec's reading, under which a failed catch-all
capture contributes no entry — never changes the output (second
conjunct). -/
theorem claim_C4 :
    (∀ (line : List Char) (caps : Caps),
      pyMatch hindiPat5 line = some caps →
      ∃ t, capLookup 2 caps = some t ∧
        is_valid_page_number (pyStrip t) = true) ∧
    ∀ text : List Char, parse_toc text true = parse_toc_hindi_gated text := by
  constructor
  · intro line caps hm
    obtain ⟨t1, t2, rfl, hne, hall⟩ := hindiPat5_match_sound hm
    refine ⟨t2, by simp [capLookup], ?_⟩
    have hst : pyStrip t2 = t2 :=
      pyStrip_of_forall_not_ws (fun c hc =>
        digit_not_ws (by rw [← uniDigitCls_eq]; exact hall c hc))
    rw [hst]
    unfold is_valid_page_number
    rw [Bool.and_eq_true, List.all_eq_true]
    refine ⟨?_, ?_⟩
    · cases t2 with
      | nil => exact absurd rfl hne
      | cons c t => rfl
    · intro c hc
      rw [← uniDigitCls_eq]
      exact hall c hc
  · exact parse_toc_eq_hindiGated

/-- C4 witness: the catch-all's capture on `"कख 12"` is the valid token
`"12"`, and on that input the gated and ungated pipelines agree. -/
theorem claim_C4_witness :
    (∃ t, capLookup 2 [(2, "12".data), (1, "कख".data)] = some t ∧
      is_valid_page_number (pyStrip t) = true) ∧
    parse_toc "कख 12".data true = parse_toc_hindi_gated "कख 12".data :=
  ⟨claim_C4.1 "कख 12".data [(2, "12".data), (1, "कख".data)] (by decide),
   claim_C4.2 "कख 12".data⟩

/-- C5: a line shorter than 5 characters after stripping, or whose lowered
form contains an administrative keyword of the active mode, never produces
an entry, whatever patterns would match it. -/
theorem claim_C5 :
    ∀ (is_hindi : Bool) (rawLine : List Char),
      ((pyStrip rawLine).length < 5 ∨
        ((if is_hindi then skip_terms_hindi else skip_terms_eng).any
          (fun term => containsSub term (pyLower (pyStrip rawLine)))) = true) →
      processLine is_hindi rawLine = none :=
  fun _ _ h => processLine_skip h

/-- C5 witness: `"Table of Contents"` is skipped in Latin mode. -/
theorem claim_C5_witness :
    processLine false "Table of Contents".data = none :=
  claim_C5 false "Table of Contents".data (Or.inr (by decide))

/-- C6: a rasterization/OCR error on a page with blank embedded text makes
that page's text empty, and the document's extraction is the other pages'
text around a lone newline, so all other pages' entries survive; in the
five-page demo document whose page 3 raises, pages 1, 2, 4, 5 still
yield their entries. -/
theorem claim_C6 :
    (∀ p : PdfPage, pyStrip p.embedded = [] → p.ocr = Except.error () →
      pageText p = []) ∧
    (∀ (ps1 ps2 : List PdfPage) (p : PdfPage),
      pyStrip p.embedded = [] → p.ocr = Except.error () →
      extract_text_from_pdf (ps1 ++ p :: ps2)
        = extract_text_from_pdf ps1 ++ '\n' :: extract_text_from_pdf ps2) ∧
    parse_toc (extract_text_from_pdf
      [⟨"Alpha .... 1".data, Except.ok none⟩,
       ⟨"Beta .... 2".data, Except.ok none⟩,
       ⟨"   ".data, Except.error ()⟩,
       ⟨"Gamma .... 4".data, Except.ok none⟩,
       ⟨"Delta .... 5".data, Except.ok none⟩]) false
    = [⟨"Alpha".data, "1".data⟩, ⟨"Beta".data, "2".data⟩,
       ⟨"Gamma".data, "4".data⟩, ⟨"Delta".data, "5".data⟩] := by
  refine ⟨?_, ?_, by decide⟩
  · intro p h1 h2
    simp [pageText, h1, h2]
  · intro ps1 ps2 p h1 h2
    rw [extract_text_append, extract_text_cons]
    have hp : pageText p = [] := by simp [pageText, h1, h2]
    rw [hp]
    simp

/-- C6 witness: the general parts applied to a concrete failing page. -/
theorem claim_C6_witness :
    pageText ⟨"   ".data, Except.error ()⟩ = [] ∧
    extract_text_from_pdf
        ([⟨"Alpha .... 1".data, Except.ok none⟩]
          ++ ⟨"   ".data, Except.error ()⟩
            :: [⟨"Delta .... 5".data, Except.ok none⟩])
      = extract_text_from_pdf [⟨"Alpha .... 1".data, Except.ok none⟩]
        ++ '\n' :: extract_text_from_pdf
          [⟨"Delta .... 5".data, Except.ok none⟩] :=
  ⟨claim_C6.1 ⟨"   ".data, Except.error ()⟩ (by decide) rfl,
   claim_C6.2.1 [⟨"Alpha .... 1".data, Except.ok none⟩]
     [⟨"Delta .... 5".data, Except.ok none⟩] ⟨"   ".data, Except.error ()⟩
     (by decide) rfl⟩

/-- C7: non-blank embedded text is used verbatim and the OCR outcome is
then irrelevant; blank embedded text routes the page through OCR, whose
output is what the page contributes. -/
theorem claim_C7 :
    (∀ p : PdfPage, pyStrip p.embedded ≠ [] → pageText p = p.embedded) ∧
    (∀ (e : List Char) (o1 o2 : Except Unit (Option (List Char))),
      pyStrip e ≠ [] → pageText ⟨e, o1⟩ = pageText ⟨e, o2⟩) ∧
    (∀ (p : PdfPage) (t : List Char), pyStrip p.embedded = [] →
      p.ocr = Except.ok (some t) → pageText p = t) := by
  refine ⟨?_, ?_, ?_⟩
  · intro p h
    have hq : (pyStrip p.embedded).isEmpty = false :=
      List.isEmpty_eq_false.mpr h
    simp [pageText, hq]
  · intro e o1 o2 h
    have hq : (pyStrip e).isEmpty = false := List.isEmpty_eq_false.mpr h
    simp [pageText, hq]
  · intro p t h1 h2
    simp [pageText, h1, h2]

/-- C7 witness: the three parts at concrete pages. -/
theorem claim_C7_witness :
    pageText ⟨"Alpha".data, Except.error ()⟩ = "Alpha".data ∧
    pageText ⟨"Alpha".data, Except.error ()⟩
      = pageText ⟨"Alpha".data, Except.ok none⟩ ∧
    pageText ⟨" ".data, Except.ok (some "Beta".data)⟩ = "Beta".data :=
  ⟨claim_C7.1 ⟨"Alpha".data, Except.error ()⟩ (by decide),
   claim_C7.2.1 "Alpha".data (Except.error ()) (Except.ok none) (by decide),
   claim_C7.2.2 ⟨" ".data, Except.ok (some "Beta".data)⟩ "Beta".data
     (by decide) rfl⟩

/-- C8: the digit normalizer is idempotent, and a string of Arabic digits
is returned unchanged. -/
theorem claim_C8 :
    (∀ s : List Char,
      convert_hindi_digits (convert_hindi_digits s)
        = convert_hindi_digits s) ∧
    (∀ s : List Char, (∀ c ∈ s, isArabicDigitChar c = true) →
      convert_hindi_digits s = s) := by
  constructor
  · intro s
    induction s with
    | nil => rfl
    | cons c t ih =>
      simp only [convert_hindi_digits, List.map_cons] at ih ⊢
      rw [convertHindiDigitChar_idem c, ih]
  · intro s h
    induction s with
    | nil => rfl
    | cons c t ih =>
      simp only [convert_hindi_digits, List.map_cons] at ih ⊢
      rw [convertHindiDigitChar_fix_arabic (h c (List.mem_cons_self c t)),
        ih (fun d hd => h d (List.mem_cons_of_mem c hd))]

/-- C8 witness: both parts at concrete digit strings. -/
theorem claim_C8_witness :
    convert_hindi_digits (convert_hindi_digits "१२".data)
        = convert_hindi_digits "१२".data ∧
    convert_hindi_digits "12".data = "12".data :=
  ⟨claim_C8.1 "१२".data, claim_C8.2 "12".data (by decide)⟩

/-- C9: the Latin-mode line `"Introduction.......... 5"` yields exactly the
entry `{chapter: "Introduction", page: "5"}`. -/
theorem claim_C9 :
    parse_toc "Introduction.......... 5".data false
      = [⟨"Introduction".data, "5".data⟩] := by
  decide

/-- C10: the numbered-heading rule `commonPat3` is shadowed by the
dot-leader rule `commonPat1`: any (newline-free) line it matches is already
matched by `commonPat1`, and removing the third rule from the Latin rule
list leaves `parse_toc`'s output unchanged on every input. -/
theorem claim_C10 :
    (∀ line : List Char, '\n' ∉ line →
      ∀ caps : Caps, pyMatch commonPat3 line = some caps →
        pyMatch commonPat1 line ≠ none) ∧
    ∀ text : List Char, parse_toc text false = parse_toc_noThird text :=
  ⟨fun _ hnl _ hm => commonPat1_match_of_pat3 hnl hm, parse_toc_eq_noThird⟩

/-- C10 witness: on `"1. Abc 2"` the third rule matches, the first rule
also matches, and removing the third rule leaves the output unchanged. -/
theorem claim_C10_witness :
    pyMatch commonPat1 "1. Abc 2".data ≠ none ∧
    parse_toc "1. Abc 2".data false = parse_toc_noThird "1. Abc 2".data :=
  ⟨claim_C10.1 "1. Abc 2".data (by decide)
     [(2, "2".data), (1, "1. Abc".data)] (by decide),
   claim_C10.2 "1. Abc 2".data⟩
